import Mathlib

set_option maxRecDepth 100000

/-!
Verification of the rust-ethereum-abi ABI codec (type grammar, value
decoder, event-log reconstruction) against its specification.

The embedding translates the Rust sources:
  - src/types.rs   (the nom type-string grammar)
  - src/values.rs  (Value and the recursive ABI decoder)
  - src/event.rs   (Event::decode_data_from_slice)

Machine integers are modelled as Nat.  Byte buffers are List Nat.  A Rust
function that can panic (out-of-bounds slice indexing, U256::as_usize
overflow, the unimplemented Tuple branch) is modelled with an explicit
DecodeResult.panicked outcome, kept distinct from the DecodeResult.error
channel that models Result::Err.

Recursive functions over the type tree carry a fuel argument so that they
are structurally recursive and evaluate inside the kernel; the wrapper
decodeT supplies tyFuel ty, which is exactly the recursion depth of the
Rust decoder on that type, so no fuel-exhaustion branch is ever reached
from the wrapper.
-/

/- The ABI type tree of src/types.rs (enum Type).  Tuples hold their
member list as the mutually defined TyList so that functions on the tree
are mutually structurally recursive. -/
mutual
inductive Ty where
  | uint (size : Nat)
  | int (size : Nat)
  | address
  | bool
  | string
  | fixedBytes (size : Nat)
  | bytes
  | fixedArray (elem : Ty) (size : Nat)
  | array (elem : Ty)
  | tuple (elems : TyList)
deriving DecidableEq
inductive TyList where
  | nil
  | cons (hd : Ty) (tl : TyList)
deriving DecidableEq
end

/-- Converts a TyList to an ordinary list of types. -/
def TyList.toList : TyList → List Ty
  | .nil => []
  | .cons t ts => t :: ts.toList

/-- Builds a TyList from an ordinary list of types. -/
def TyList.ofList : List Ty → TyList
  | [] => .nil
  | t :: ts => .cons t (TyList.ofList ts)

mutual
/-- Modelled from the spec: Type::is_dynamic is referenced by
src/values.rs but its definition is not among the sources.  The spec
says: a type is dynamic iff it is String, Bytes, an Array, or a
FixedArray or Tuple transitively containing a dynamic type. -/
def Ty.isDynamic : Ty → Bool
  | .uint _ => false
  | .int _ => false
  | .address => false
  | .bool => false
  | .string => true
  | .fixedBytes _ => false
  | .bytes => true
  | .fixedArray t _ => t.isDynamic
  | .array _ => true
  | .tuple ts => ts.anyDynamic
def TyList.anyDynamic : TyList → Bool
  | .nil => false
  | .cons t ts => t.isDynamic || ts.anyDynamic
end

/-- Event::is_encoded_to_keccak from src/event.rs. -/
def isEncodedToKeccak : Ty → Bool
  | .fixedArray _ _ => true
  | .array _ => true
  | .bytes => true
  | .string => true
  | .tuple _ => true
  | _ => false

/-- Exact recursion depth of the Rust decoder on a type: decode on
String recurses once into Bytes, on FixedArray once into the element
type, and on Array once into FixedArray of the element type.  Used as
the fuel of the structural decode below. -/
def tyFuel : Ty → Nat
  | .string => 2
  | .fixedArray t _ => tyFuel t + 1
  | .array t => tyFuel t + 2
  | _ => 1

/-- Decoded values of src/values.rs (enum Value).  Uint and Int carry
the raw 256-bit big-endian word as a Nat together with the declared bit
width.  The string constructor carries the UTF-8 bytes of the decoded
text.  The fixedBytes constructor is the Value::FixedBytes variant used
by src/event.rs (its declaration is in a source file not present). -/
inductive Value where
  | uint (v : Nat) (size : Nat)
  | int (v : Nat) (size : Nat)
  | address (a : List Nat)
  | bool (b : Bool)
  | string (s : List Nat)
  | bytes (bv : List Nat)
  | fixedBytes (bv : List Nat)
  | array (vs : List Value)
  | tuple (vs : List Value)

/-- Outcome of a Rust computation returning Result, with an explicit
constructor for a panic (out-of-bounds slice indexing, integer-cast
overflow, todo-style unimplemented branches). -/
inductive DecodeResult (α : Type) where
  | ok (a : α)
  | error (e : String)
  | panicked

instance : Monad DecodeResult where
  pure := .ok
  bind x f := match x with
    | .ok a => f a
    | .error e => .error e
    | .panicked => .panicked

/-- Big-endian value of a byte list (U256::from_big_endian on a 32-byte
slice). -/
def beBytes (l : List Nat) : Nat := l.foldl (fun acc b => acc * 256 + b) 0

/-- Rust slice indexing bs[a..a+len]: panics when the range extends past
the end of the buffer. -/
def readSlice (bs : List Nat) (a len : Nat) : DecodeResult (List Nat) :=
  if a + len ≤ bs.length then .ok ((bs.drop a).take len) else .panicked

/-- Reads the 32-byte big-endian word at offset a. -/
def readWord (bs : List Nat) (a : Nat) : DecodeResult Nat := do
  let l ← readSlice bs a 32
  pure (beBytes l)

/-- U256::as_usize: panics when the value exceeds usize::MAX (64-bit
target). -/
def asUsize (v : Nat) : DecodeResult Nat :=
  if v < 2 ^ 64 then .ok v else .panicked

/-- Value::padded32_size from src/values.rs. -/
def padded32Size (size : Nat) : Nat :=
  let r := size % 32
  if r = 0 then size else size + 32 - r

/-- Byte-level UTF-8 validity, as checked by String::from_utf8. -/
def isUtf8Cont (b : Nat) : Bool := 0x80 ≤ b && b ≤ 0xBF

/-- UTF-8 validation over raw bytes (String::from_utf8 succeeding). -/
def isValidUtf8 : List Nat → Bool
  | [] => true
  | b :: rest =>
    if b ≤ 0x7F then isValidUtf8 rest
    else if 0xC2 ≤ b && b ≤ 0xDF then
      match rest with
      | c1 :: r => isUtf8Cont c1 && isValidUtf8 r
      | _ => false
    else if b = 0xE0 then
      match rest with
      | c1 :: c2 :: r => (0xA0 ≤ c1 && c1 ≤ 0xBF) && isUtf8Cont c2 && isValidUtf8 r
      | _ => false
    else if (0xE1 ≤ b && b ≤ 0xEC) || b = 0xEE || b = 0xEF then
      match rest with
      | c1 :: c2 :: r => isUtf8Cont c1 && isUtf8Cont c2 && isValidUtf8 r
      | _ => false
    else if b = 0xED then
      match rest with
      | c1 :: c2 :: r => (0x80 ≤ c1 && c1 ≤ 0x9F) && isUtf8Cont c2 && isValidUtf8 r
      | _ => false
    else if b = 0xF0 then
      match rest with
      | c1 :: c2 :: c3 :: r =>
        (0x90 ≤ c1 && c1 ≤ 0xBF) && isUtf8Cont c2 && isUtf8Cont c3 && isValidUtf8 r
      | _ => false
    else if 0xF1 ≤ b && b ≤ 0xF3 then
      match rest with
      | c1 :: c2 :: c3 :: r =>
        isUtf8Cont c1 && isUtf8Cont c2 && isUtf8Cont c3 && isValidUtf8 r
      | _ => false
    else if b = 0xF4 then
      match rest with
      | c1 :: c2 :: c3 :: r =>
        (0x80 ≤ c1 && c1 ≤ 0x8F) && isUtf8Cont c2 && isUtf8Cont c3 && isValidUtf8 r
      | _ => false
    else false

/-- The element loop of the FixedArray arm of Value::decode (the
try_fold over 0..size): dec receives the bytes consumed so far and
decodes the next element; the result pairs the element list with the
total bytes consumed. -/
def decodeElems (dec : Nat → DecodeResult (Value × Nat)) :
    Nat → Nat → DecodeResult (List Value × Nat)
  | 0, total => .ok ([], total)
  | n + 1, total => do
    let (v, c) ← dec total
    let (vs, t) ← decodeElems dec n (total + c)
    pure (v :: vs, t)

/-- Value::decode from src/values.rs, fuel-indexed.  The fuel is a
structural-recursion device only: called through decodeT with
tyFuel ty, the zero-fuel branch is unreachable, and every recursive
call below passes exactly the fuel the callee's type needs.  The
returned Nat is the number of bytes consumed at the cursor. -/
def decode (bs : List Nat) : Nat → Ty → Nat → Nat → DecodeResult (Value × Nat)
  | 0, _, _, _ => .panicked
  | fuel + 1, ty, base_addr, at_ =>
    match ty with
    | .uint size => do
      let w ← readWord bs (base_addr + at_)
      pure (Value.uint w size, 32)
    | .int size => do
      let w ← readWord bs (base_addr + at_)
      pure (Value.int w size, 32)
    | .address => do
      let a ← readSlice bs (base_addr + at_) 20
      pure (Value.address a, 32)
    | .bool => do
      let w ← readWord bs (base_addr + at_)
      pure (Value.bool (w == 1), 32)
    | .fixedBytes size => do
      let bv ← readSlice bs (base_addr + at_) size
      pure (Value.bytes bv, padded32Size size)
    | .fixedArray ty' size => do
      let ba ←
        if ty'.isDynamic then do
          -- the source reads this offset word at the raw cursor at_,
          -- not at base_addr + at_
          let w ← readWord bs at_
          let offset ← asUsize w
          pure (base_addr + offset, 0)
        else pure (base_addr, at_)
      let (values, consumed) ←
        decodeElems (fun total => decode bs fuel ty' ba.1 (ba.2 + total)) size 0
      pure (Value.array values, if ty'.isDynamic then 32 else consumed)
    | .string => do
      let (bv, consumed) ← decode bs fuel .bytes base_addr (base_addr + at_)
      match bv with
      | .bytes bytes =>
        if isValidUtf8 bytes then pure (Value.string bytes, consumed)
        else .error "invalid utf-8"
      | _ => .panicked
    | .bytes => do
      let w ← readWord bs (base_addr + at_)
      let offset ← asUsize w
      let w2 ← readWord bs (base_addr + offset)
      let len ← asUsize w2
      let bv ← readSlice bs (base_addr + offset + 32) len
      pure (Value.bytes bv, 32)
    | .array ty' => do
      let w ← readWord bs (base_addr + at_)
      let offset ← asUsize w
      let w2 ← readWord bs (base_addr + offset)
      let len ← asUsize w2
      let (arr, _) ← decode bs fuel (.fixedArray ty' len) (base_addr + offset) 32
      pure (arr, 32)
    | .tuple _ => .panicked  -- the source has todo!() here

/-- Value::decode with the fuel instantiated to the exact recursion
depth of its type. -/
def decodeT (bs : List Nat) (ty : Ty) (base_addr at_ : Nat) : DecodeResult (Value × Nat) :=
  decode bs (tyFuel ty) ty base_addr at_

/-- Value::decode_from_slice from src/values.rs: decodes one value per
type sequentially from the start of the buffer. -/
def decodeFromSlice (bs : List Nat) (tys : List Ty) : DecodeResult (List Value) := do
  let r ← tys.foldlM
    (fun (acc : List Value × Nat) ty => do
      let (value, consumed) ← decodeT bs ty 0 acc.2
      pure (acc.1 ++ [value], acc.2 + consumed))
    (([] : List Value), 0)
  pure r.1

/-!
The type-string grammar of src/types.rs (mod parsers), built on nom.
Parsers are functions List Char → Option (List Char × α): some (rest, a)
is a successful parse leaving rest unconsumed, none is a nom error (all
the nom combinators used by the source backtrack on error).  parseType
carries fuel because its only self-reference, through parse_tuple,
re-enters it on a strictly shorter input; parseExactType supplies
length + 1, so the fuel never runs out.
-/

/-- nom char: consumes exactly the given character. -/
def pChar (c : Char) (s : List Char) : Option (List Char × Unit) :=
  match s with
  | [] => none
  | x :: rest => if x = c then some (rest, ()) else none

/-- nom tag: consumes exactly the given literal. -/
def pTag : List Char → List Char → Option (List Char × Unit)
  | [], s => some (s, ())
  | _ :: _, [] => none
  | c :: cs, x :: xs => if x = c then pTag cs xs else none

/-- Decimal value of a digit character. -/
def digitVal (c : Char) : Nat := c.toNat - 48

/-- parsers::parse_integer: map_res(recognize(many1(digit1)), str::parse)
— takes the maximal nonempty run of ASCII digits and parses it as a
usize, failing on overflow of the 64-bit usize. -/
def parseInteger (s : List Char) : Option (List Char × Nat) :=
  if (s.takeWhile Char.isDigit).isEmpty then none
  else
    if (s.takeWhile Char.isDigit).foldl (fun a c => a * 10 + digitVal c) 0 < 2 ^ 64 then
      some (s.drop (s.takeWhile Char.isDigit).length,
        (s.takeWhile Char.isDigit).foldl (fun a c => a * 10 + digitVal c) 0)
    else none

/-- parsers::parse_sized: a tag followed by an integer. -/
def parseSized (t : List Char) (s : List Char) : Option (List Char × Nat) :=
  match pTag t s with
  | some (i, _) => parseInteger i
  | none => none

/-- parsers::check_int_size. -/
def checkIntSize (i : Nat) : Bool := 0 < i && i ≤ 256 && i % 8 == 0

/-- parsers::check_fixed_bytes_size. -/
def checkFixedBytesSize (i : Nat) : Bool := 0 < i && i ≤ 32

/-- parsers::parse_uint. -/
def parseUint (s : List Char) : Option (List Char × Ty) :=
  match parseSized ("uint".toList) s with
  | some (i, size) => if checkIntSize size then some (i, Ty.uint size) else none
  | none => none

/-- parsers::parse_int. -/
def parseInt (s : List Char) : Option (List Char × Ty) :=
  match parseSized ("int".toList) s with
  | some (i, size) => if checkIntSize size then some (i, Ty.int size) else none
  | none => none

/-- parsers::parse_address. -/
def parseAddress (s : List Char) : Option (List Char × Ty) :=
  match pTag ("address".toList) s with
  | some (i, _) => some (i, Ty.address)
  | none => none

/-- parsers::parse_bool. -/
def parseBool (s : List Char) : Option (List Char × Ty) :=
  match pTag ("bool".toList) s with
  | some (i, _) => some (i, Ty.bool)
  | none => none

/-- parsers::parse_string. -/
def parseString (s : List Char) : Option (List Char × Ty) :=
  match pTag ("string".toList) s with
  | some (i, _) => some (i, Ty.string)
  | none => none

/-- parsers::parse_bytes: the tag, then opt(verify(parse_integer,
check_fixed_bytes_size)); a size failing the check makes the opt
combinator consume nothing and yield the unsized bytes type. -/
def parseBytes (s : List Char) : Option (List Char × Ty) :=
  match pTag ("bytes".toList) s with
  | none => none
  | some (i, _) =>
    match parseInteger i with
    | some (i2, n) =>
      if checkFixedBytesSize n then some (i2, Ty.fixedBytes n) else some (i, Ty.bytes)
    | none => some (i, Ty.bytes)

/-- parsers::parse_simple_type: the alternatives in source order. -/
def parseSimpleType (s : List Char) : Option (List Char × Ty) :=
  (parseUint s).orElse fun _ =>
  (parseInt s).orElse fun _ =>
  (parseBytes s).orElse fun _ =>
  (parseString s).orElse fun _ =>
  (parseAddress s).orElse fun _ =>
  parseBool s

/-- One bracket suffix: delimited(char(open), opt(parse_integer),
char(close)) with square brackets. -/
def parseBracket (s : List Char) : Option (List Char × Option Nat) :=
  match pChar '[' s with
  | none => none
  | some (i, _) =>
    let p : List Char × Option Nat :=
      match parseInteger i with
      | some (i', n) => (i', some n)
      | none => (i, none)
    match pChar ']' p.1 with
    | none => none
    | some (i3, _) => some (i3, p.2)

/-- The repetition part of many1 over bracket suffixes (fuel-bounded;
each successful bracket consumes at least two characters, so fuel equal
to the input length is always enough). -/
def parseBracketsAux : Nat → List Char → List Char × List (Option Nat)
  | 0, s => (s, [])
  | fuel + 1, s =>
    match parseBracket s with
    | none => (s, [])
    | some (r, sz) =>
      let p := parseBracketsAux fuel r
      (p.1, sz :: p.2)

/-- many1 of bracket suffixes. -/
def parseBrackets (s : List Char) : Option (List Char × List (Option Nat)) :=
  match parseBracket s with
  | none => none
  | some (r, sz) =>
    let p := parseBracketsAux r.length r
    some (p.1, sz :: p.2)

/-- The closure of parsers::parse_array mapping an optional size to an
array type constructor. -/
def arrayFromSize (t : Ty) (sz : Option Nat) : Ty :=
  match sz with
  | none => .array t
  | some n => .fixedArray t n

/-- parsers::parse_array: a simple base type then one or more bracket
suffixes, folded left-to-right. -/
def parseArray (s : List Char) : Option (List Char × Ty) :=
  match parseSimpleType s with
  | none => none
  | some (i, t) =>
    match parseBrackets i with
    | none => none
    | some (i2, sizes) =>
      match sizes with
      | [] => none  -- unreachable: parseBrackets yields a nonempty list
      | sz0 :: szs => some (i2, szs.foldl arrayFromSize (arrayFromSize t sz0))

/-- The repetition part of separated_list1(char(comma), p): each
iteration consumes the comma then runs p, backtracking the comma when p
fails (fuel-bounded; every iteration consumes at least the comma, so
fuel equal to the input length is always enough). -/
def parseSepAux (p : List Char → Option (List Char × Ty)) :
    Nat → List Char → List Char × List Ty
  | 0, s => (s, [])
  | fuel + 1, s =>
    match pChar ',' s with
    | none => (s, [])
    | some (r, _) =>
      match p r with
      | none => (s, [])
      | some (r2, t) =>
        let q := parseSepAux p fuel r2
        (q.1, t :: q.2)

/-- separated_list1(char(comma), p). -/
def parseSep1 (p : List Char → Option (List Char × Ty)) (s : List Char) :
    Option (List Char × List Ty) :=
  match p s with
  | none => none
  | some (r, t) =>
    let q := parseSepAux p r.length r
    some (q.1, t :: q.2)

/-- parsers::parse_tuple, parameterized by the recursive type parser. -/
def parseTuple (rec : List Char → Option (List Char × Ty)) (s : List Char) :
    Option (List Char × Ty) :=
  match pChar '(' s with
  | none => none
  | some (i, _) =>
    match parseSep1 rec i with
    | none => none
    | some (i2, tys) =>
      match pChar ')' i2 with
      | none => none
      | some (i3, _) => some (i3, Ty.tuple (TyList.ofList tys))

/-- parsers::parse_type: alt((parse_tuple, parse_array,
parse_simple_type)), fuel-indexed for the parse_tuple self-reference. -/
def parseType : Nat → List Char → Option (List Char × Ty)
  | 0, _ => none
  | fuel + 1, s =>
    (parseTuple (parseType fuel) s).orElse fun _ =>
    (parseArray s).orElse fun _ =>
    parseSimpleType s

/-- parsers::parse_exact_type: the nom exact combinator — the parse
succeeds only when the whole input is consumed. -/
def parseExactType (s : List Char) : Option Ty :=
  match parseType (s.length + 1) s with
  | some ([], t) => some t
  | _ => none

/-- Decimal digit character (0 to 9 only; other inputs never occur). -/
def digitChar : Nat → Char
  | 0 => '0' | 1 => '1' | 2 => '2' | 3 => '3' | 4 => '4'
  | 5 => '5' | 6 => '6' | 7 => '7' | 8 => '8' | _ => '9'

/-- Decimal rendering of a Nat, most significant digit first
(fuel-bounded so that it is structural; fuel n + 1 always suffices). -/
def decDigitsAux : Nat → Nat → List Char
  | 0, _ => []
  | fuel + 1, n =>
    if n < 10 then [digitChar n]
    else decDigitsAux fuel (n / 10) ++ [digitChar (n % 10)]

/-- Canonical decimal rendering of a Nat, without leading zeros. -/
def decDigits (n : Nat) : List Char := decDigitsAux (n + 1) n

/- Modelled from the spec: the canonical rendering Type → string (the
Display implementation used by Function::signature via
param.type_.to_string(), whose definition is not among the sources).
The spec requires it to exactly match the grammar's own canonical
textual forms: uint<N>/int<N>, address, bool, string, bytes<N>, bytes,
the element type followed by the bracket suffix for arrays, and the
parenthesized comma-separated member list for tuples. -/
mutual
def render : Ty → List Char
  | .uint size => "uint".toList ++ decDigits size
  | .int size => "int".toList ++ decDigits size
  | .address => "address".toList
  | .bool => "bool".toList
  | .string => "string".toList
  | .fixedBytes size => "bytes".toList ++ decDigits size
  | .bytes => "bytes".toList
  | .fixedArray t n => render t ++ ('[' :: (decDigits n ++ [']']))
  | .array t => render t ++ "[]".toList
  | .tuple ts => '(' :: (renderList ts ++ [')'])
def renderList : TyList → List Char
  | .nil => []
  | .cons t .nil => render t
  | .cons t ts => render t ++ (',' :: renderList ts)
end

/-- Whether the innermost base of a nest of array constructors is a
tuple (the grammar cannot produce such types: parse_array only accepts
a simple base type). -/
def baseIsTuple : Ty → Bool
  | .tuple _ => true
  | .fixedArray t _ => baseIsTuple t
  | .array t => baseIsTuple t
  | _ => false

/- The types the grammar can actually produce: integer widths a
multiple of 8 in 8..256, fixed-bytes sizes in 1..32, fixed-array sizes
below 2^64 (usize), nonempty tuples, and no tuple at the base of an
array nest. -/
mutual
def validTy : Ty → Bool
  | .uint size => checkIntSize size
  | .int size => checkIntSize size
  | .address => true
  | .bool => true
  | .string => true
  | .fixedBytes size => checkFixedBytesSize size
  | .bytes => true
  | .fixedArray t n => validTy t && !baseIsTuple t && decide (n < 2 ^ 64)
  | .array t => validTy t && !baseIsTuple t
  | .tuple ts => (match ts with | .nil => false | _ => true) && validTyList ts
def validTyList : TyList → Bool
  | .nil => true
  | .cons t ts => validTy t && validTyList ts
end

/-!
Event-log reconstruction, from src/event.rs.  The Param structure is
declared in a source file not present (params.rs); its fields are fixed
by the uses in src/event.rs and src/abi.rs: a name, a type, and an
optional indexed flag.  DecodedParams wraps a list of (Param, Value)
pairs; topics are modelled as raw byte lists (H256 values are exactly
32 bytes).
-/

structure Param where
  name : String
  type_ : Ty
  indexed : Option Bool

/-- Whether a parameter is indexed: input.indexed.unwrap_or(false). -/
def isIndexedP (p : Param) : Bool := p.indexed.getD false

structure Event where
  name : String
  inputs : List Param
  anonymous : Bool

/-- The parameter loop of Event::decode_data_from_slice: walks the
inputs in declaration order, popping the next topic for an indexed
parameter (kept opaque as Value.fixedBytes when the type is hashed when
indexed, decoded as the type otherwise) and the next data-derived value
for a non-indexed one. -/
def decodeLoop : List Param → List (List Nat) → List Value →
    DecodeResult (List (Param × Value))
  | [], _, _ => pure []
  | input :: rest, topicsQ, dataQ =>
    if isIndexedP input then
      match topicsQ with
      | [] => .error "insufficient topics entries"
      | t :: tq =>
        (if isEncodedToKeccak input.type_ then pure (Value.fixedBytes t)
         else
           decodeFromSlice t [input.type_] >>= fun vs =>
             match vs with
             | [] => .error "no value decoded from topics entry"
             | v :: _ => pure v) >>= fun v =>
        decodeLoop rest tq dataQ >>= fun ds =>
        pure ((input, v) :: ds)
    else
      match dataQ with
      | [] => .error "insufficient data values"
      | d :: dq =>
        decodeLoop rest topicsQ dq >>= fun ds =>
        pure ((input, d) :: ds)

/-- Event::decode_data_from_slice from src/event.rs: strips the event
topic for a non-anonymous event, decodes the data buffer against the
non-indexed input types, then merges topics and data values back into
declaration order. -/
def decodeDataFromSlice (ev : Event) (topics : List (List Nat)) (data : List Nat) :
    DecodeResult (List (Param × Value)) :=
  (if ev.anonymous then pure topics
   else
     match topics with
     | [] => DecodeResult.error "missing event topic"
     | _ :: tl => pure tl) >>= fun topics' =>
  decodeFromSlice data
    ((ev.inputs.filter (fun p => !isIndexedP p)).map Param.type_) >>= fun dataVals =>
  decodeLoop ev.inputs topics' dataVals

/-- Modelled from the spec: the FixedArray arm for a dynamic element
type as claim C2 describes it — the 32-byte offset word is read at
baseAddr + at (the source instead reads it at the raw cursor at), the
decoder re-bases to baseAddr + offset with internal cursor 0, decodes
the elements sequentially from the new base, and reports 32 bytes
consumed. -/
def decodeFixedArrayDynAtBase (bs : List Nat) (elem : Ty) (n : Nat)
    (base_addr at_ : Nat) : DecodeResult (Value × Nat) := do
  let w ← readWord bs (base_addr + at_)
  let offset ← asUsize w
  let (values, _) ←
    decodeElems (fun total => decode bs (tyFuel elem) elem (base_addr + offset) (0 + total)) n 0
  pure (Value.array values, 32)

/-!
Concrete fixtures used by the claims.
-/

/-- A 32-byte big-endian word with value b below 256. -/
def w32 (b : Nat) : List Nat := List.replicate 31 0 ++ [b]

/-- Buffer for claim C2, twelve 32-byte words.  Word 0 (value 64) is
the offset word the source reads; word 1 (value 128) is the offset word
at base_addr + at that the claim says is read.  Each of the two
candidate re-bases leads to a distinct well-formed bytes payload: 0x11
via word 0 and 0x22 via word 1. -/
def bsC2 : List Nat :=
  w32 64 ++ w32 128 ++ w32 0 ++ w32 160 ++ w32 0 ++ w32 160 ++
  w32 0 ++ w32 0 ++ w32 1 ++ (0x11 :: List.replicate 31 0) ++
  w32 1 ++ (0x22 :: List.replicate 31 0)

/-- The event fixture of the src/event.rs test: inputs
(x: uint256, y: uint256 indexed, x1: uint256, y1: uint256 indexed,
s: string), non-anonymous. -/
def evFix : Event :=
  { name := "Test"
    inputs :=
      [ { name := "x", type_ := Ty.uint 256, indexed := none }
      , { name := "y", type_ := Ty.uint 256, indexed := some true }
      , { name := "x1", type_ := Ty.uint 256, indexed := none }
      , { name := "y1", type_ := Ty.uint 256, indexed := some true }
      , { name := "s", type_ := Ty.string, indexed := none } ]
    anonymous := false }

/-- Topics for the event fixture: the event topic, then the words 10
and 11. -/
def topicsFix : List (List Nat) := [w32 0xf5, w32 10, w32 11]

/-- Data buffer for the event fixture: the words 1, 2, an offset 0x60,
the string length 3, and the bytes of abc padded to 32. -/
def dataFix : List Nat :=
  w32 1 ++ w32 2 ++ w32 0x60 ++ w32 3 ++ (97 :: 98 :: 99 :: List.replicate 29 0)

/-- The decoded parameter list the event fixture produces. -/
def psFix : List (Param × Value) :=
  [ ({ name := "x", type_ := Ty.uint 256, indexed := none }, Value.uint 1 256)
  , ({ name := "y", type_ := Ty.uint 256, indexed := some true }, Value.uint 10 256)
  , ({ name := "x1", type_ := Ty.uint 256, indexed := none }, Value.uint 2 256)
  , ({ name := "y1", type_ := Ty.uint 256, indexed := some true }, Value.uint 11 256)
  , ({ name := "s", type_ := Ty.string, indexed := none }, Value.string [97, 98, 99]) ]

/-- The 32-byte big-endian word of the buffer at a given offset. -/
def beWordAt (bs : List Nat) (a : Nat) : Nat := beBytes ((bs.drop a).take 32)

/-- Number of indexed parameters in a list. -/
def countIndexed (ps : List Param) : Nat := (ps.filter isIndexedP).length

/-!
Analysis helpers for the grammar round-trip: decomposition of a nest of
array constructors into its base and its bracket-suffix list, and the
follow-set conditions under which a rendered type re-parses exactly.
-/

/-- Whether the head character of the input is an ASCII digit. -/
def headIsDigit : List Char → Bool
  | [] => false
  | c :: _ => c.isDigit

/-- Follow-set condition for re-parsing a rendered type: the next
character (if any) does not extend the parse — it is neither a digit
nor an opening bracket. -/
def goodHead : List Char → Bool
  | [] => true
  | c :: _ => !c.isDigit && c != '['

/-- Whether the head character of the input is an opening bracket. -/
def headIsLB : List Char → Bool
  | [] => false
  | c :: _ => c == '['

/-- Whether a type is a tuple. -/
def isTupleTy : Ty → Bool
  | .tuple _ => true
  | _ => false

/-- Whether a type is an array or fixed array. -/
def isArrTy : Ty → Bool
  | .array _ => true
  | .fixedArray _ _ => true
  | _ => false

/-- Whether a type is one of the simple (non-tuple, non-array)
types. -/
def isSimple : Ty → Bool
  | .tuple _ => false
  | .array _ => false
  | .fixedArray _ _ => false
  | _ => true

/-- The innermost non-array base of a nest of array constructors. -/
def arrBase : Ty → Ty
  | .array t => arrBase t
  | .fixedArray t _ => arrBase t
  | t => t

/-- The bracket-suffix sizes of a nest of array constructors, innermost
first (the order in which they appear textually). -/
def arrSizes : Ty → List (Option Nat)
  | .array t => arrSizes t ++ [none]
  | .fixedArray t n => arrSizes t ++ [some n]
  | _ => []

/-- Rendering of one bracket suffix. -/
def sufStr : Option Nat → List Char
  | none => ['[', ']']
  | some n => '[' :: (decDigits n ++ [']'])

/-- Rendering of a list of bracket suffixes. -/
def sufConcat : List (Option Nat) → List Char
  | [] => []
  | sz :: szs => sufStr sz ++ sufConcat szs

/-- All fixed sizes in a suffix list fit in a usize. -/
def sizesOK : List (Option Nat) → Prop :=
  fun szs => ∀ n, some n ∈ szs → n < 2 ^ 64

/-- Rendering of the tail of a tuple member list: a comma before every
further member. -/
def sepTail : TyList → List Char
  | .nil => []
  | .cons t ts => ',' :: (render t ++ sepTail ts)

/-- Number of members of a TyList. -/
def countTL : TyList → Nat
  | .nil => 0
  | .cons _ ts => countTL ts + 1

/-- Membership in a TyList. -/
def memTL (t : Ty) : TyList → Prop
  | .nil => False
  | .cons u ts => t = u ∨ memTL t ts

/-!
Basic lemmas about the DecodeResult monad and the byte-reading
helpers.
-/

@[simp]
theorem DecodeResult.ok_bind {α β : Type} (a : α) (f : α → DecodeResult β) :
    (DecodeResult.ok a >>= f) = f a := rfl

@[simp]
theorem DecodeResult.error_bind {α β : Type} (e : String) (f : α → DecodeResult β) :
    ((DecodeResult.error e : DecodeResult α) >>= f) = DecodeResult.error e := rfl

@[simp]
theorem DecodeResult.panicked_bind {α β : Type} (f : α → DecodeResult β) :
    ((DecodeResult.panicked : DecodeResult α) >>= f) = DecodeResult.panicked := rfl

@[simp]
theorem DecodeResult.pure_eq {α : Type} (a : α) :
    (pure a : DecodeResult α) = DecodeResult.ok a := rfl

/-- Inversion of a successful monadic bind. -/
theorem DecodeResult.bind_ok_inv {α β : Type} {x : DecodeResult α}
    {f : α → DecodeResult β} {b : β} (h : (x >>= f) = DecodeResult.ok b) :
    ∃ a, x = DecodeResult.ok a ∧ f a = DecodeResult.ok b := by
  cases x with
  | ok a => exact ⟨a, rfl, h⟩
  | error e => simp at h
  | panicked => simp at h

theorem readSlice_pos {bs : List Nat} {a len : Nat} (h : a + len ≤ bs.length) :
    readSlice bs a len = DecodeResult.ok ((bs.drop a).take len) := by
  simp [readSlice, h]

theorem readWord_pos {bs : List Nat} {a : Nat} (h : a + 32 ≤ bs.length) :
    readWord bs a = DecodeResult.ok (beWordAt bs a) := by
  simp [readWord, readSlice_pos h, beWordAt]

/-- Unfolding of the decoder at the Address type. -/
theorem decode_address_eq (bs : List Nat) (base_addr at_ : Nat) :
    decodeT bs Ty.address base_addr at_ =
      (readSlice bs (base_addr + at_) 20) >>= fun a =>
        pure (Value.address a, 32) := rfl

/-- Unfolding of the decoder at the Bool type. -/
theorem decode_bool_eq (bs : List Nat) (base_addr at_ : Nat) :
    decodeT bs Ty.bool base_addr at_ =
      (readWord bs (base_addr + at_)) >>= fun w =>
        pure (Value.bool (w == 1), 32) := rfl

/-- Unfolding of the decoder at the Uint type. -/
theorem decode_uint_eq (bs : List Nat) (size base_addr at_ : Nat) :
    decodeT bs (Ty.uint size) base_addr at_ =
      (readWord bs (base_addr + at_)) >>= fun w =>
        pure (Value.uint w size, 32) := rfl

/-- Unfolding of the decoder at the Int type. -/
theorem decode_int_eq (bs : List Nat) (size base_addr at_ : Nat) :
    decodeT bs (Ty.int size) base_addr at_ =
      (readWord bs (base_addr + at_)) >>= fun w =>
        pure (Value.int w size, 32) := rfl

/-!
Claims C1, C2, C4, C5, C6, C7, C10.
-/

/-- Claim C1.  The claim states that decoding always either returns
values or a typed DecodeError, never panicking, in particular on
out-of-bounds reads and on the Tuple branch.  The code instead panics
in both situations: on the empty buffer with a uint256 the slice
indexing bs[0..32] is out of bounds (a Rust panic, modelled as
DecodeResult.panicked, which is not a returned DecodeError), and on any
Tuple type the todo!() branch panics. -/
theorem c1_truncation_and_tuple_panic :
    decodeFromSlice [] [Ty.uint 256] = DecodeResult.panicked ∧
    decodeFromSlice (List.replicate 64 0) [Ty.tuple TyList.nil] = DecodeResult.panicked ∧
    ∀ e, decodeFromSlice [] [Ty.uint 256] ≠ DecodeResult.error e := by
  refine ⟨rfl, rfl, ?_⟩
  intro e h
  rw [show decodeFromSlice [] [Ty.uint 256] = DecodeResult.panicked from rfl] at h
  exact DecodeResult.noConfusion h

/-- Claim C2.  The claim states that for a FixedArray of a dynamic
element type the decoder reads the 32-byte offset word at
baseAddr + at.  The code reads it at the raw cursor at instead
(every other arm of Value::decode first sets at := base_addr + at; this
one re-bases to base_addr + offset but reads offset at the unadjusted
cursor).  On the bsC2 buffer with base_addr = 32 and at = 0 the code
follows the offset word at position 0 and yields the payload 0x11,
while the claim-described reading of the word at position 32 yields the
distinct payload 0x22. -/
theorem c2_fixed_array_dynamic_offset_read :
    decodeT bsC2 (Ty.fixedArray Ty.bytes 1) 32 0 =
      DecodeResult.ok (Value.array [Value.bytes [0x11]], 32) ∧
    decodeFixedArrayDynAtBase bsC2 Ty.bytes 1 32 0 =
      DecodeResult.ok (Value.array [Value.bytes [0x22]], 32) ∧
    Value.bytes [0x11] ≠ Value.bytes [0x22] := by
  refine ⟨rfl, rfl, ?_⟩
  intro h
  injection h with h'
  exact absurd h' (by decide)

/-- Claim C4, counterexample.  The claim states that decoding an
Address returns the low 20 bytes (the last 20 of the 32-byte word).  On
the buffer 0,1,...,31 the code returns the first 20 bytes 0..19, not
the last 20 bytes 12..31. -/
theorem c4_address_low_bytes_counterexample :
    decodeT (List.range 32) Ty.address 0 0 =
      DecodeResult.ok (Value.address (List.range 20), 32) ∧
    List.range 20 ≠ (List.range 32).drop 12 := by
  exact ⟨rfl, by decide⟩

/-- Claim C4 as amended: decoding an Address returns the first 20
bytes of the 32-byte slot at baseAddr + at (the code slices
bs[at..at+20] after at := base_addr + at), and consumes 32 bytes. -/
theorem c4_address_first_twenty_bytes (bs : List Nat) (base_addr at_ : Nat)
    (h : base_addr + at_ + 20 ≤ bs.length) :
    decodeT bs Ty.address base_addr at_ =
      DecodeResult.ok (Value.address ((bs.drop (base_addr + at_)).take 20), 32) := by
  rw [decode_address_eq, readSlice_pos h]
  rfl

/-- Witness for the amended claim C4 at a concrete buffer. -/
theorem c4_address_first_twenty_bytes_witness :
    0 + 0 + 20 ≤ (List.range 32).length ∧
    decodeT (List.range 32) Ty.address 0 0 =
      DecodeResult.ok (Value.address (List.range 20), 32) :=
  ⟨by decide, (c4_address_first_twenty_bytes (List.range 32) 0 0 (by decide)).trans rfl⟩

/-- Claim C5.  Decoding Bool reads the 32-byte big-endian word at
baseAddr + at, yields Bool true exactly when that word equals 1 (any
other value, including nonzero values other than 1, yields Bool false),
and consumes 32 bytes. -/
theorem c5_bool_decode_eq_one (bs : List Nat) (base_addr at_ : Nat)
    (h : base_addr + at_ + 32 ≤ bs.length) :
    decodeT bs Ty.bool base_addr at_ =
      DecodeResult.ok (Value.bool (beWordAt bs (base_addr + at_) == 1), 32) := by
  rw [decode_bool_eq, readWord_pos h]
  rfl

/-- Witness for claim C5: a word with the nonzero value 5 decodes to
Bool false, and the word 1 decodes to Bool true. -/
theorem c5_bool_decode_eq_one_witness :
    (0 + 0 + 32 ≤ (w32 5).length ∧
      decodeT (w32 5) Ty.bool 0 0 = DecodeResult.ok (Value.bool false, 32)) ∧
    (0 + 0 + 32 ≤ (w32 1).length ∧
      decodeT (w32 1) Ty.bool 0 0 = DecodeResult.ok (Value.bool true, 32)) :=
  ⟨⟨by decide, (c5_bool_decode_eq_one (w32 5) 0 0 (by decide)).trans rfl⟩,
   ⟨by decide, (c5_bool_decode_eq_one (w32 1) 0 0 (by decide)).trans rfl⟩⟩

/-- Claim C6.  Bracket suffixes are folded left-to-right so the
rightmost bracket is the outermost constructor. -/
theorem c6_bracket_fold_order :
    parseExactType ("string[2][]".toList) =
      some (Ty.array (Ty.fixedArray Ty.string 2)) ∧
    parseExactType ("string[][3]".toList) =
      some (Ty.fixedArray (Ty.array Ty.string) 3) :=
  ⟨rfl, rfl⟩

/-- Claim C7.  parse_exact_type succeeds exactly when the grammar
consumes the whole input; inputs with trailing or leading characters
fail. -/
theorem c7_parse_exact_consumes_all :
    (∀ (s : List Char) (t : Ty),
      parseExactType s = some t ↔ parseType (s.length + 1) s = some ([], t)) ∧
    parseExactType ("uint256x".toList) = none ∧
    parseExactType (" uint256".toList) = none ∧
    parseExactType ("uint256".toList) = some (Ty.uint 256) := by
  refine ⟨?_, rfl, rfl, rfl⟩
  intro s t
  unfold parseExactType
  cases hp : parseType (s.length + 1) s with
  | none => simp
  | some r =>
    obtain ⟨rest, t'⟩ := r
    cases rest with
    | nil => simp
    | cons c cs => simp

/-!
Claim C3: the event-log merge keeps declaration order.
-/

theorem countIndexed_cons_true {p : Param} {l : List Param} (h : isIndexedP p = true) :
    countIndexed (p :: l) = countIndexed l + 1 := by
  simp [countIndexed, List.filter_cons, h]

theorem countIndexed_cons_false {p : Param} {l : List Param} (h : isIndexedP p = false) :
    countIndexed (p :: l) = countIndexed l := by
  simp [countIndexed, List.filter_cons, h]

theorem countIndexed_le (l : List Param) : countIndexed l ≤ l.length :=
  List.length_filter_le _ _

/-- Characterization of a successful run of the parameter loop of
Event::decode_data_from_slice: the result pairs the k-th input with a
value taken from the topic queue at the index counting the indexed
inputs before k (opaque fixedBytes for hashed-when-indexed types,
decoded as the type otherwise) or from the data-value queue at the
index counting the non-indexed inputs before k. -/
theorem decodeLoop_spec :
    ∀ (inputs : List Param) (topicsQ : List (List Nat)) (dataQ : List Value)
      (ps : List (Param × Value)),
      decodeLoop inputs topicsQ dataQ = DecodeResult.ok ps →
      ps.length = inputs.length ∧
      ∀ k, k < inputs.length →
        ∃ p v, inputs[k]? = some p ∧ ps[k]? = some (p, v) ∧
          (if isIndexedP p then
            ∃ t, topicsQ[countIndexed (inputs.take k)]? = some t ∧
              (if isEncodedToKeccak p.type_ then v = Value.fixedBytes t
               else ∃ vs, decodeFromSlice t [p.type_] = DecodeResult.ok vs ∧
                 vs.head? = some v)
          else dataQ[k - countIndexed (inputs.take k)]? = some v) := by
  intro inputs
  induction inputs with
  | nil =>
    intro topicsQ dataQ ps h
    have hps : ps = [] := by
      simpa [decodeLoop] using h.symm
    subst hps
    refine ⟨rfl, ?_⟩
    intro k hk
    exact absurd hk (by simp)
  | cons input rest ih =>
    intro topicsQ dataQ ps h
    by_cases hI : isIndexedP input = true
    · unfold decodeLoop at h
      rw [if_pos hI] at h
      cases topicsQ with
      | nil => exact (DecodeResult.noConfusion h)
      | cons t tq =>
        obtain ⟨v, hv, h2⟩ := DecodeResult.bind_ok_inv h
        obtain ⟨ds, hds, h3⟩ := DecodeResult.bind_ok_inv h2
        have hps : ps = (input, v) :: ds := by
          simpa using h3.symm
        subst hps
        obtain ⟨hlen, hk⟩ := ih tq dataQ ds hds
        refine ⟨by simp [hlen], ?_⟩
        intro k hklt
        cases k with
        | zero =>
          refine ⟨input, v, by simp, by simp, ?_⟩
          rw [if_pos hI]
          refine ⟨t, by simp [countIndexed], ?_⟩
          by_cases hK : isEncodedToKeccak input.type_ = true
          · rw [if_pos hK] at hv ⊢
            have : Value.fixedBytes t = v := by simpa using hv
            exact this.symm
          · rw [if_neg hK] at hv ⊢
            obtain ⟨vs, hvs, hm⟩ := DecodeResult.bind_ok_inv hv
            refine ⟨vs, hvs, ?_⟩
            cases vs with
            | nil => exact (DecodeResult.noConfusion hm)
            | cons v0 vs' =>
              have : v0 = v := by simpa using hm
              simp [this]
        | succ k =>
          have hklt' : k < rest.length := by
            simpa using Nat.lt_of_succ_lt_succ hklt
          obtain ⟨p, v', hp, hps', hcond⟩ := hk k hklt'
          refine ⟨p, v', by simpa using hp, by simpa using hps', ?_⟩
          have hcount : countIndexed ((input :: rest).take (k + 1)) =
              countIndexed (rest.take k) + 1 := by
            simp [List.take_succ_cons, countIndexed_cons_true hI]
          by_cases hIp : isIndexedP p = true
          · rw [if_pos hIp] at hcond ⊢
            obtain ⟨t', ht', hrest⟩ := hcond
            refine ⟨t', ?_, hrest⟩
            rw [hcount]
            simpa using ht'
          · rw [if_neg hIp] at hcond ⊢
            have : k + 1 - (countIndexed (rest.take k) + 1) = k - countIndexed (rest.take k) := by
              omega
            rw [hcount, this]
            exact hcond
    · unfold decodeLoop at h
      rw [if_neg hI] at h
      have hI' : isIndexedP input = false := by
        simpa using hI
      cases dataQ with
      | nil => exact (DecodeResult.noConfusion h)
      | cons d dq =>
        obtain ⟨ds, hds, h3⟩ := DecodeResult.bind_ok_inv h
        have hps : ps = (input, d) :: ds := by
          simpa using h3.symm
        subst hps
        obtain ⟨hlen, hk⟩ := ih topicsQ dq ds hds
        refine ⟨by simp [hlen], ?_⟩
        intro k hklt
        cases k with
        | zero =>
          refine ⟨input, d, by simp, by simp, ?_⟩
          rw [if_neg hI]
          simp [countIndexed]
        | succ k =>
          have hklt' : k < rest.length := by
            simpa using Nat.lt_of_succ_lt_succ hklt
          obtain ⟨p, v', hp, hps', hcond⟩ := hk k hklt'
          refine ⟨p, v', by simpa using hp, by simpa using hps', ?_⟩
          have hcount : countIndexed ((input :: rest).take (k + 1)) =
              countIndexed (rest.take k) := by
            simp [List.take_succ_cons, countIndexed_cons_false hI']
          by_cases hIp : isIndexedP p = true
          · rw [if_pos hIp] at hcond ⊢
            rw [hcount]
            exact hcond
          · rw [if_neg hIp] at hcond ⊢
            rw [hcount]
            have hle : countIndexed (rest.take k) ≤ k := by
              calc countIndexed (rest.take k) ≤ (rest.take k).length := countIndexed_le _
                _ ≤ k := by simp
            have : k + 1 - countIndexed (rest.take k) =
                (k - countIndexed (rest.take k)) + 1 := by
              omega
            rw [this]
            simpa using hcond

/-- Claim C3.  On any success of Event::decode_data_from_slice the
returned list is in the event inputs' declaration order: the k-th pair
holds the k-th input, paired with the next unconsumed topic when the
input is indexed (kept as an opaque 32-byte value for string, bytes,
array and tuple types, decoded as the scalar type otherwise) and with
the next value decoded from the data buffer against the ordered
non-indexed input types when it is not. -/
theorem c3_event_decode_declaration_order (ev : Event) (topics : List (List Nat))
    (data : List Nat) (ps : List (Param × Value))
    (h : decodeDataFromSlice ev topics data = DecodeResult.ok ps) :
    ∃ topicsUsed dataVals,
      topicsUsed = (if ev.anonymous then topics else topics.tail) ∧
      decodeFromSlice data ((ev.inputs.filter (fun p => !isIndexedP p)).map Param.type_) =
        DecodeResult.ok dataVals ∧
      ps.length = ev.inputs.length ∧
      ∀ k, k < ev.inputs.length →
        ∃ p v, ev.inputs[k]? = some p ∧ ps[k]? = some (p, v) ∧
          (if isIndexedP p then
            ∃ t, topicsUsed[countIndexed (ev.inputs.take k)]? = some t ∧
              (if isEncodedToKeccak p.type_ then v = Value.fixedBytes t
               else ∃ vs, decodeFromSlice t [p.type_] = DecodeResult.ok vs ∧
                 vs.head? = some v)
          else dataVals[k - countIndexed (ev.inputs.take k)]? = some v) := by
  unfold decodeDataFromSlice at h
  obtain ⟨topics', hstrip, h2⟩ := DecodeResult.bind_ok_inv h
  obtain ⟨dataVals, hdv, h3⟩ := DecodeResult.bind_ok_inv h2
  obtain ⟨hlen, hk⟩ := decodeLoop_spec ev.inputs topics' dataVals ps h3
  refine ⟨topics', dataVals, ?_, hdv, hlen, hk⟩
  by_cases hA : ev.anonymous = true
  · rw [if_pos hA]
    rw [if_pos hA] at hstrip
    simpa using hstrip.symm
  · rw [if_neg hA]
    rw [if_neg hA] at hstrip
    cases topics with
    | nil => exact (DecodeResult.noConfusion hstrip)
    | cons t0 tl => simpa using hstrip.symm

/-- Witness for claim C3 at the fixture of the src/event.rs test. -/
theorem c3_event_decode_declaration_order_witness :
    ∃ topicsUsed dataVals,
      topicsUsed = (if evFix.anonymous then topicsFix else topicsFix.tail) ∧
      decodeFromSlice dataFix
        ((evFix.inputs.filter (fun p => !isIndexedP p)).map Param.type_) =
        DecodeResult.ok dataVals ∧
      psFix.length = evFix.inputs.length ∧
      ∀ k, k < evFix.inputs.length →
        ∃ p v, evFix.inputs[k]? = some p ∧ psFix[k]? = some (p, v) ∧
          (if isIndexedP p then
            ∃ t, topicsUsed[countIndexed (evFix.inputs.take k)]? = some t ∧
              (if isEncodedToKeccak p.type_ then v = Value.fixedBytes t
               else ∃ vs, decodeFromSlice t [p.type_] = DecodeResult.ok vs ∧
                 vs.head? = some v)
          else dataVals[k - countIndexed (evFix.inputs.take k)]? = some v) :=
  c3_event_decode_declaration_order evFix topicsFix dataFix psFix rfl

/-- Claim C10.  Decoding Int w and Uint w at the same position both
read the same 32-byte big-endian word, keep it unchanged (no sign
extension, truncation, or range check) together with the declared
width w, consume 32 bytes, and differ only in the constructor; both
panic together when the read is out of bounds. -/
theorem c10_int_uint_same_raw_word (bs : List Nat) (base_addr at_ w : Nat) :
    decodeT bs (Ty.uint w) base_addr at_ =
      (if base_addr + at_ + 32 ≤ bs.length then
        DecodeResult.ok (Value.uint (beWordAt bs (base_addr + at_)) w, 32)
      else DecodeResult.panicked) ∧
    decodeT bs (Ty.int w) base_addr at_ =
      (if base_addr + at_ + 32 ≤ bs.length then
        DecodeResult.ok (Value.int (beWordAt bs (base_addr + at_)) w, 32)
      else DecodeResult.panicked) := by
  constructor
  · rw [decode_uint_eq]
    by_cases h : base_addr + at_ + 32 ≤ bs.length
    · rw [readWord_pos h, if_pos h]
      rfl
    · rw [if_neg h]
      have : readWord bs (base_addr + at_) = DecodeResult.panicked := by
        simp [readWord, readSlice, h]
      rw [this]
      rfl
  · rw [decode_int_eq]
    by_cases h : base_addr + at_ + 32 ≤ bs.length
    · rw [readWord_pos h, if_pos h]
      rfl
    · rw [if_neg h]
      have : readWord bs (base_addr + at_) = DecodeResult.panicked := by
        simp [readWord, readSlice, h]
      rw [this]
      rfl

/-!
Round-trip lemmas for the grammar: decimal digits.
-/

theorem digitChar_isDigit {d : Nat} (h : d < 10) : (digitChar d).isDigit = true := by
  interval_cases d <;> decide

theorem digitVal_digitChar {d : Nat} (h : d < 10) : digitVal (digitChar d) = d := by
  interval_cases d <;> decide

theorem decDigitsAux_spec : ∀ fuel n, n < fuel →
    (decDigitsAux fuel n ≠ [] ∧
     (∀ c ∈ decDigitsAux fuel n, c.isDigit = true) ∧
     ∀ acc, (decDigitsAux fuel n).foldl (fun a c => a * 10 + digitVal c) acc =
       acc * 10 ^ (decDigitsAux fuel n).length + n) := by
  intro fuel
  induction fuel with
  | zero => intro n hn; omega
  | succ f ih =>
    intro n hn
    by_cases h10 : n < 10
    · rw [show decDigitsAux (f + 1) n = [digitChar n] from by simp [decDigitsAux, h10]]
      refine ⟨by simp, ?_, ?_⟩
      · intro c hc
        rw [List.mem_singleton] at hc
        subst hc
        exact digitChar_isDigit h10
      · intro acc
        simp [List.foldl, digitVal_digitChar h10]
    · rw [show decDigitsAux (f + 1) n =
          decDigitsAux f (n / 10) ++ [digitChar (n % 10)] from by simp [decDigitsAux, h10]]
      have hdiv : n / 10 < f := by
        have h1 : n / 10 < n := Nat.div_lt_self (by omega) (by omega)
        omega
      obtain ⟨hne, hdig, hval⟩ := ih (n / 10) hdiv
      refine ⟨by simp, ?_, ?_⟩
      · intro c hc
        rw [List.mem_append, List.mem_singleton] at hc
        rcases hc with hc | hc
        · exact hdig c hc
        · subst hc
          exact digitChar_isDigit (Nat.mod_lt _ (by omega))
      · intro acc
        rw [List.foldl_append, hval acc]
        simp only [List.foldl, List.length_append, List.length_singleton]
        rw [digitVal_digitChar (Nat.mod_lt _ (by omega))]
        rw [pow_succ]
        have := Nat.div_add_mod n 10
        ring_nf
        omega

theorem decDigits_ne_nil (n : Nat) : decDigits n ≠ [] :=
  (decDigitsAux_spec (n + 1) n (by omega)).1

theorem decDigits_digits (n : Nat) : ∀ c ∈ decDigits n, c.isDigit = true :=
  (decDigitsAux_spec (n + 1) n (by omega)).2.1

theorem decDigits_val (n : Nat) :
    (decDigits n).foldl (fun a c => a * 10 + digitVal c) 0 = n := by
  have := (decDigitsAux_spec (n + 1) n (by omega)).2.2 0
  simpa using this

theorem decDigits_head_digit (n : Nat) :
    ∃ c cs, decDigits n = c :: cs ∧ c.isDigit = true := by
  cases hd : decDigits n with
  | nil => exact absurd hd (decDigits_ne_nil n)
  | cons c cs =>
    refine ⟨c, cs, rfl, ?_⟩
    exact decDigits_digits n c (by rw [hd]; simp)

theorem takeWhile_digits_append {l r : List Char}
    (hl : ∀ c ∈ l, c.isDigit = true) (hr : headIsDigit r = false) :
    (l ++ r).takeWhile Char.isDigit = l := by
  induction l with
  | nil =>
    cases r with
    | nil => rfl
    | cons c cs =>
      simp only [headIsDigit] at hr
      simp [List.takeWhile, hr]
  | cons c cs ih =>
    have hc : c.isDigit = true := hl c (by simp)
    rw [List.cons_append, List.takeWhile_cons_of_pos (by simp [hc])]
    rw [ih (fun x hx => hl x (by simp [hx]))]

/-- parseInteger after a canonical decimal rendering consumes exactly
the digits, yielding the value when it fits in a usize and a nom error
otherwise. -/
theorem parseInteger_decDigits (n : Nat) (r : List Char) (hr : headIsDigit r = false) :
    parseInteger (decDigits n ++ r) =
      if n < 2 ^ 64 then some (r, n) else none := by
  unfold parseInteger
  rw [takeWhile_digits_append (decDigits_digits n) hr]
  rw [show (decDigits n).isEmpty = false from by
    cases hd : decDigits n with
    | nil => exact absurd hd (decDigits_ne_nil n)
    | cons c cs => rfl]
  simp only [Bool.false_eq_true, if_false]
  rw [decDigits_val n, List.drop_left]

theorem parseInteger_none {s : List Char} (hs : headIsDigit s = false) :
    parseInteger s = none := by
  cases s with
  | nil => rfl
  | cons c cs =>
    simp only [headIsDigit] at hs
    simp [parseInteger, List.takeWhile, hs]

theorem pTag_append (t r : List Char) : pTag t (t ++ r) = some (r, ()) := by
  induction t with
  | nil => rfl
  | cons c cs ih => simp [pTag, ih]

/-!
Round-trip lemmas: the simple types.
-/

theorem checkIntSize_iff (n : Nat) :
    checkIntSize n = true ↔ (n % 8 = 0 ∧ 8 ≤ n ∧ n ≤ 256) := by
  simp only [checkIntSize, Bool.and_eq_true, decide_eq_true_eq, beq_iff_eq]
  constructor
  · rintro ⟨⟨h1, h2⟩, h3⟩
    refine ⟨h3, ?_, h2⟩
    omega
  · rintro ⟨h1, h2, h3⟩
    exact ⟨⟨by omega, h3⟩, h1⟩

theorem checkFixedBytesSize_iff (n : Nat) :
    checkFixedBytesSize n = true ↔ (1 ≤ n ∧ n ≤ 32) := by
  simp only [checkFixedBytesSize, Bool.and_eq_true, decide_eq_true_eq]
  omega

theorem parseUint_render (size : Nat) (r : List Char) (hr : headIsDigit r = false)
    (hsz : size < 2 ^ 64) (hchk : checkIntSize size = true) :
    parseUint (render (Ty.uint size) ++ r) = some (r, Ty.uint size) := by
  have heq : render (Ty.uint size) ++ r = "uint".toList ++ (decDigits size ++ r) := by
    simp [render, List.append_assoc]
  rw [heq]
  unfold parseUint parseSized
  simp only [pTag_append, parseInteger_decDigits _ _ hr, if_pos hsz, hchk, if_true]

theorem parseInt_render (size : Nat) (r : List Char) (hr : headIsDigit r = false)
    (hsz : size < 2 ^ 64) (hchk : checkIntSize size = true) :
    parseInt (render (Ty.int size) ++ r) = some (r, Ty.int size) := by
  have heq : render (Ty.int size) ++ r = "int".toList ++ (decDigits size ++ r) := by
    simp [render, List.append_assoc]
  rw [heq]
  unfold parseInt parseSized
  simp only [pTag_append, parseInteger_decDigits _ _ hr, if_pos hsz, hchk, if_true]

theorem parseBytes_render_unsized (r : List Char) (hr : headIsDigit r = false) :
    parseBytes (render Ty.bytes ++ r) = some (r, Ty.bytes) := by
  have heq : render Ty.bytes ++ r = "bytes".toList ++ r := rfl
  rw [heq]
  unfold parseBytes
  simp only [pTag_append, parseInteger_none hr]

theorem parseBytes_render_fixed (size : Nat) (r : List Char) (hr : headIsDigit r = false)
    (hchk : checkFixedBytesSize size = true) :
    parseBytes (render (Ty.fixedBytes size) ++ r) = some (r, Ty.fixedBytes size) := by
  have heq : render (Ty.fixedBytes size) ++ r = "bytes".toList ++ (decDigits size ++ r) := by
    simp [render, List.append_assoc]
  rw [heq]
  unfold parseBytes
  have hsz : size < 2 ^ 64 := by
    rw [checkFixedBytesSize_iff] at hchk
    omega
  simp only [pTag_append, parseInteger_decDigits _ _ hr, if_pos hsz, hchk, if_true]

/-- A rendered simple type re-parses exactly through parse_simple_type
when not followed by a digit. -/
theorem parseSimpleType_render (t : Ty) (r : List Char) (hs : isSimple t = true)
    (hv : validTy t = true) (hr : headIsDigit r = false) :
    parseSimpleType (render t ++ r) = some (r, t) := by
  cases t with
  | uint size =>
    have hchk : checkIntSize size = true := hv
    have hsz : size < 2 ^ 64 := by
      rw [checkIntSize_iff] at hchk
      omega
    unfold parseSimpleType
    rw [parseUint_render size r hr hsz hchk]
    rfl
  | int size =>
    have hchk : checkIntSize size = true := hv
    have hsz : size < 2 ^ 64 := by
      rw [checkIntSize_iff] at hchk
      omega
    unfold parseSimpleType
    rw [show parseUint (render (Ty.int size) ++ r) = none from rfl]
    rw [parseInt_render size r hr hsz hchk]
    rfl
  | address =>
    unfold parseSimpleType
    rw [show parseUint (render Ty.address ++ r) = none from rfl]
    rw [show parseInt (render Ty.address ++ r) = none from rfl]
    rw [show parseBytes (render Ty.address ++ r) = none from rfl]
    rw [show parseString (render Ty.address ++ r) = none from rfl]
    rw [show parseAddress (render Ty.address ++ r) = some (r, Ty.address) from rfl]
    rfl
  | bool =>
    unfold parseSimpleType
    rw [show parseUint (render Ty.bool ++ r) = none from rfl]
    rw [show parseInt (render Ty.bool ++ r) = none from rfl]
    rw [show parseBytes (render Ty.bool ++ r) = none from rfl]
    rw [show parseString (render Ty.bool ++ r) = none from rfl]
    rw [show parseAddress (render Ty.bool ++ r) = none from rfl]
    rw [show parseBool (render Ty.bool ++ r) = some (r, Ty.bool) from rfl]
    rfl
  | string =>
    unfold parseSimpleType
    rw [show parseUint (render Ty.string ++ r) = none from rfl]
    rw [show parseInt (render Ty.string ++ r) = none from rfl]
    rw [show parseBytes (render Ty.string ++ r) = none from rfl]
    rw [show parseString (render Ty.string ++ r) = some (r, Ty.string) from rfl]
    rfl
  | fixedBytes size =>
    have hchk : checkFixedBytesSize size = true := hv
    unfold parseSimpleType
    rw [show parseUint (render (Ty.fixedBytes size) ++ r) = none from rfl]
    rw [show parseInt (render (Ty.fixedBytes size) ++ r) = none from rfl]
    rw [parseBytes_render_fixed size r hr hchk]
    rfl
  | bytes =>
    unfold parseSimpleType
    rw [show parseUint (render Ty.bytes ++ r) = none from rfl]
    rw [show parseInt (render Ty.bytes ++ r) = none from rfl]
    rw [parseBytes_render_unsized r hr]
    rfl
  | fixedArray t n => simp [isSimple] at hs
  | array t => simp [isSimple] at hs
  | tuple ts => simp [isSimple] at hs

/-!
Round-trip lemmas: array nests and bracket suffixes.
-/

theorem pChar_self (c : Char) (xs : List Char) : pChar c (c :: xs) = some (xs, ()) := by
  simp [pChar]

theorem goodHead_not_digit {r : List Char} (h : goodHead r = true) :
    headIsDigit r = false := by
  cases r with
  | nil => rfl
  | cons c cs =>
    simp only [goodHead, Bool.and_eq_true, Bool.not_eq_true'] at h
    simpa [headIsDigit] using h.1

theorem goodHead_not_lb {r : List Char} (h : goodHead r = true) :
    headIsLB r = false := by
  cases r with
  | nil => rfl
  | cons c cs =>
    simp only [goodHead, Bool.and_eq_true, bne_iff_ne] at h
    simpa [headIsLB] using h.2

theorem arrBase_eq_self {t : Ty} (h : isArrTy t = false) : arrBase t = t := by
  cases t <;> first | rfl | simp [isArrTy] at h

theorem arrSizes_eq_nil {t : Ty} (h : isArrTy t = false) : arrSizes t = [] := by
  cases t <;> first | rfl | simp [isArrTy] at h

theorem baseIsTuple_of_not_arr {t : Ty} (h : isArrTy t = false) :
    baseIsTuple t = isTupleTy t := by
  cases t <;> first | rfl | simp [isArrTy] at h

theorem isSimple_of_not_arr_tuple {t : Ty} (h1 : isArrTy t = false)
    (h2 : isTupleTy t = false) : isSimple t = true := by
  cases t with
  | fixedArray t n => simp [isArrTy] at h1
  | array t => simp [isArrTy] at h1
  | tuple ts => simp [isTupleTy] at h2
  | uint m => rfl
  | int m => rfl
  | address => rfl
  | bool => rfl
  | string => rfl
  | fixedBytes m => rfl
  | bytes => rfl

theorem sufConcat_append (l1 l2 : List (Option Nat)) :
    sufConcat (l1 ++ l2) = sufConcat l1 ++ sufConcat l2 := by
  induction l1 with
  | nil => simp [sufConcat]
  | cons sz szs ih => simp [sufConcat, ih]

/-- The rendering of a type splits into the rendering of its array base
followed by its bracket suffixes. -/
theorem render_decomp : (t : Ty) →
    render t = render (arrBase t) ++ sufConcat (arrSizes t)
  | .array t => by
    rw [show arrBase (Ty.array t) = arrBase t from rfl,
      show arrSizes (Ty.array t) = arrSizes t ++ [none] from rfl,
      show render (Ty.array t) = render t ++ ['[', ']'] from rfl,
      render_decomp t, sufConcat_append, List.append_assoc]
    rfl
  | .fixedArray t n => by
    rw [show arrBase (Ty.fixedArray t n) = arrBase t from rfl,
      show arrSizes (Ty.fixedArray t n) = arrSizes t ++ [some n] from rfl,
      show render (Ty.fixedArray t n) =
        render t ++ ('[' :: (decDigits n ++ [']'])) from rfl,
      render_decomp t, sufConcat_append, List.append_assoc]
    simp [sufConcat, sufStr]
  | .uint m => by simp [arrBase, arrSizes, sufConcat]
  | .int m => by simp [arrBase, arrSizes, sufConcat]
  | .address => by simp [arrBase, arrSizes, sufConcat]
  | .bool => by simp [arrBase, arrSizes, sufConcat]
  | .string => by simp [arrBase, arrSizes, sufConcat]
  | .fixedBytes m => by simp [arrBase, arrSizes, sufConcat]
  | .bytes => by simp [arrBase, arrSizes, sufConcat]
  | .tuple ts => by simp [arrBase, arrSizes, sufConcat]

/-- Folding the bracket suffixes over the base rebuilds the type. -/
theorem foldl_arrSizes : (t : Ty) →
    (arrSizes t).foldl arrayFromSize (arrBase t) = t
  | .array t => by
    rw [show arrBase (Ty.array t) = arrBase t from rfl,
      show arrSizes (Ty.array t) = arrSizes t ++ [none] from rfl,
      List.foldl_append, foldl_arrSizes t]
    rfl
  | .fixedArray t n => by
    rw [show arrBase (Ty.fixedArray t n) = arrBase t from rfl,
      show arrSizes (Ty.fixedArray t n) = arrSizes t ++ [some n] from rfl,
      List.foldl_append, foldl_arrSizes t]
    rfl
  | .uint m => rfl
  | .int m => rfl
  | .address => rfl
  | .bool => rfl
  | .string => rfl
  | .fixedBytes m => rfl
  | .bytes => rfl
  | .tuple ts => rfl

/-- For a valid array nest, the base is a valid simple type, the
suffix sizes fit in a usize, and the suffix list is nonempty. -/
theorem valid_arr_parts : (t : Ty) → validTy t = true → isArrTy t = true →
    validTy (arrBase t) = true ∧ isSimple (arrBase t) = true ∧
    sizesOK (arrSizes t) ∧ arrSizes t ≠ []
  | .array t => by
    intro hv _
    have hv' : validTy t = true ∧ baseIsTuple t = false := by
      simpa [validTy, Bool.and_eq_true] using hv
    by_cases ha : isArrTy t = true
    · obtain ⟨h1, h2, h3, h4⟩ := valid_arr_parts t hv'.1 ha
      refine ⟨h1, h2, ?_, by simp [arrSizes]⟩
      intro n hn
      rw [show arrSizes (Ty.array t) = arrSizes t ++ [none] from rfl] at hn
      rw [List.mem_append] at hn
      rcases hn with h | h
      · exact h3 n h
      · simp at h
    · have ha' : isArrTy t = false := by simpa using ha
      have hbase : arrBase (Ty.array t) = t := by
        rw [show arrBase (Ty.array t) = arrBase t from rfl, arrBase_eq_self ha']
      have htup : isTupleTy t = false := by
        rw [← baseIsTuple_of_not_arr ha']
        exact hv'.2
      refine ⟨by rw [hbase]; exact hv'.1,
        by rw [hbase]; exact isSimple_of_not_arr_tuple ha' htup, ?_, by simp [arrSizes]⟩
      intro n hn
      rw [show arrSizes (Ty.array t) = arrSizes t ++ [none] from rfl,
        arrSizes_eq_nil ha'] at hn
      simp at hn
  | .fixedArray t m => by
    intro hv _
    have hv' : (validTy t = true ∧ baseIsTuple t = false) ∧ m < 2 ^ 64 := by
      simpa [validTy, Bool.and_eq_true] using hv
    by_cases ha : isArrTy t = true
    · obtain ⟨h1, h2, h3, h4⟩ := valid_arr_parts t hv'.1.1 ha
      refine ⟨h1, h2, ?_, by simp [arrSizes]⟩
      intro n hn
      rw [show arrSizes (Ty.fixedArray t m) = arrSizes t ++ [some m] from rfl] at hn
      rw [List.mem_append] at hn
      rcases hn with h | h
      · exact h3 n h
      · have : n = m := by simpa using h
        subst this
        exact hv'.2
    · have ha' : isArrTy t = false := by simpa using ha
      have hbase : arrBase (Ty.fixedArray t m) = t := by
        rw [show arrBase (Ty.fixedArray t m) = arrBase t from rfl, arrBase_eq_self ha']
      have htup : isTupleTy t = false := by
        rw [← baseIsTuple_of_not_arr ha']
        exact hv'.1.2
      refine ⟨by rw [hbase]; exact hv'.1.1,
        by rw [hbase]; exact isSimple_of_not_arr_tuple ha' htup, ?_, by simp [arrSizes]⟩
      intro n hn
      rw [show arrSizes (Ty.fixedArray t m) = arrSizes t ++ [some m] from rfl,
        arrSizes_eq_nil ha'] at hn
      have : n = m := by simpa using hn
      subst this
      exact hv'.2
  | .uint m => by intro _ ha; simp [isArrTy] at ha
  | .int m => by intro _ ha; simp [isArrTy] at ha
  | .address => by intro _ ha; simp [isArrTy] at ha
  | .bool => by intro _ ha; simp [isArrTy] at ha
  | .string => by intro _ ha; simp [isArrTy] at ha
  | .fixedBytes m => by intro _ ha; simp [isArrTy] at ha
  | .bytes => by intro _ ha; simp [isArrTy] at ha
  | .tuple ts => by intro _ ha; simp [isArrTy] at ha

theorem parseBracket_suf (sz : Option Nat) (x : List Char)
    (hn : ∀ n, sz = some n → n < 2 ^ 64) :
    parseBracket (sufStr sz ++ x) = some (x, sz) := by
  cases sz with
  | none => rfl
  | some n =>
    have heq : sufStr (some n) ++ x = '[' :: (decDigits n ++ (']' :: x)) := by
      simp [sufStr]
    rw [heq]
    unfold parseBracket
    rw [pChar_self]
    simp only [parseInteger_decDigits n (']' :: x) rfl, if_pos (hn n rfl)]
    rw [pChar_self]

theorem parseBracket_not {s : List Char} (h : headIsLB s = false) :
    parseBracket s = none := by
  cases s with
  | nil => rfl
  | cons c cs =>
    have hc : c ≠ '[' := by simpa [headIsLB] using h
    simp [parseBracket, pChar, hc]

theorem sufStr_len_pos (sz : Option Nat) : 1 ≤ (sufStr sz).length := by
  cases sz with
  | none => simp [sufStr]
  | some n => simp [sufStr]

theorem sufConcat_len (szs : List (Option Nat)) :
    szs.length ≤ (sufConcat szs).length := by
  induction szs with
  | nil => simp [sufConcat]
  | cons sz szs ih =>
    have := sufStr_len_pos sz
    simp only [sufConcat, List.length_append, List.length_cons]
    omega

theorem parseBracketsAux_suf :
    ∀ (szs : List (Option Nat)) (fuel : Nat) (r : List Char),
      szs.length ≤ fuel → sizesOK szs → headIsLB r = false →
      parseBracketsAux fuel (sufConcat szs ++ r) = (r, szs) := by
  intro szs
  induction szs with
  | nil =>
    intro fuel r _ _ hr
    cases fuel with
    | zero => rfl
    | succ f =>
      show parseBracketsAux (f + 1) (sufConcat [] ++ r) = (r, [])
      rw [show sufConcat [] ++ r = r from by simp [sufConcat]]
      unfold parseBracketsAux
      rw [parseBracket_not hr]
  | cons sz szs ih =>
    intro fuel r hf hok hr
    cases fuel with
    | zero => simp at hf
    | succ f =>
      have heq : sufConcat (sz :: szs) ++ r = sufStr sz ++ (sufConcat szs ++ r) := by
        simp [sufConcat]
      rw [heq]
      unfold parseBracketsAux
      rw [parseBracket_suf sz _ (fun n h => hok n (by simp [h]))]
      show ((parseBracketsAux f (sufConcat szs ++ r)).1,
        sz :: (parseBracketsAux f (sufConcat szs ++ r)).2) = (r, sz :: szs)
      rw [ih f r (by simpa using hf) (fun n h => hok n (by simp [h])) hr]

theorem parseBrackets_suf (szs : List (Option Nat)) (r : List Char)
    (hne : szs ≠ []) (hok : sizesOK szs) (hr : headIsLB r = false) :
    parseBrackets (sufConcat szs ++ r) = some (r, szs) := by
  cases szs with
  | nil => exact absurd rfl hne
  | cons sz szs' =>
    have heq : sufConcat (sz :: szs') ++ r = sufStr sz ++ (sufConcat szs' ++ r) := by
      simp [sufConcat]
    rw [heq]
    unfold parseBrackets
    rw [parseBracket_suf sz _ (fun n h => hok n (by simp [h]))]
    have hlen : szs'.length ≤ (sufConcat szs' ++ r).length := by
      have := sufConcat_len szs'
      simp only [List.length_append]
      omega
    show some ((parseBracketsAux (sufConcat szs' ++ r).length (sufConcat szs' ++ r)).1,
      sz :: (parseBracketsAux (sufConcat szs' ++ r).length (sufConcat szs' ++ r)).2) =
      some (r, sz :: szs')
    rw [parseBracketsAux_suf szs' _ r hlen (fun n h => hok n (by simp [h])) hr]

theorem sufConcat_cons_head_digit (sz : Option Nat) (szs : List (Option Nat))
    (r : List Char) : headIsDigit (sufConcat (sz :: szs) ++ r) = false := by
  cases sz <;> rfl

/-!
Round-trip lemmas: tuples and comma-separated member lists.
-/

theorem ofList_toList : (ts : TyList) → TyList.ofList (TyList.toList ts) = ts
  | .nil => rfl
  | .cons t ts => by
    rw [show TyList.toList (TyList.cons t ts) = t :: TyList.toList ts from rfl]
    rw [show TyList.ofList (t :: TyList.toList ts) =
      TyList.cons t (TyList.ofList (TyList.toList ts)) from rfl]
    rw [ofList_toList ts]

theorem validTyList_mem : (ts : TyList) → validTyList ts = true →
    ∀ t', memTL t' ts → validTy t' = true
  | .nil => by
    intro _ t' hm
    exact hm.elim
  | .cons u us => by
    intro hv t' hm
    have hv' : validTy u = true ∧ validTyList us = true := by
      simpa [validTyList, Bool.and_eq_true] using hv
    rcases hm with hm | hm
    · subst hm
      exact hv'.1
    · exact validTyList_mem us hv'.2 t' hm

theorem renderList_decomp : (ts : TyList) → ∀ t0 : Ty,
    renderList (TyList.cons t0 ts) = render t0 ++ sepTail ts
  | .nil => by
    intro t0
    simp [renderList, sepTail]
  | .cons u us => by
    intro t0
    rw [show renderList (TyList.cons t0 (TyList.cons u us)) =
      render t0 ++ (',' :: renderList (TyList.cons u us)) from rfl]
    rw [renderList_decomp us u]
    rfl

theorem renderList_le_sepTail (ts : TyList) :
    (renderList ts).length ≤ (sepTail ts).length := by
  cases ts with
  | nil => simp [renderList, sepTail]
  | cons u us =>
    rw [renderList_decomp us u]
    rw [show sepTail (TyList.cons u us) = ',' :: (render u ++ sepTail us) from rfl]
    simp

theorem mem_render_le : (ts : TyList) → ∀ t', memTL t' ts →
    (render t').length ≤ (renderList ts).length
  | .nil => by
    intro t' hm
    exact hm.elim
  | .cons u us => by
    intro t' hm
    rw [renderList_decomp us u]
    rcases hm with hm | hm
    · subst hm
      simp
    · have h1 := mem_render_le us t' hm
      have h2 := renderList_le_sepTail us
      simp only [List.length_append]
      omega

theorem countTL_le_sepTail_len : (ts : TyList) → countTL ts ≤ (sepTail ts).length
  | .nil => by simp [countTL, sepTail]
  | .cons u us => by
    have ih := countTL_le_sepTail_len us
    rw [show countTL (TyList.cons u us) = countTL us + 1 from rfl]
    rw [show sepTail (TyList.cons u us) = ',' :: (render u ++ sepTail us) from rfl]
    simp only [List.length_cons, List.length_append]
    omega

theorem sepTail_goodHead (ts : TyList) (r : List Char) :
    goodHead (sepTail ts ++ (')' :: r)) = true := by
  cases ts <;> rfl

theorem parseSepAux_members :
    (ts : TyList) → ∀ (p : List Char → Option (List Char × Ty)),
    (∀ t' r', memTL t' ts → goodHead r' = true → p (render t' ++ r') = some (r', t')) →
    ∀ fuel r, countTL ts ≤ fuel →
    parseSepAux p fuel (sepTail ts ++ (')' :: r)) = (')' :: r, TyList.toList ts)
  | .nil => by
    intro p _ fuel r _
    cases fuel with
    | zero => rfl
    | succ f => rfl
  | .cons u us => by
    intro p hp fuel r hf
    cases fuel with
    | zero => simp [countTL] at hf
    | succ f =>
      have heq : sepTail (TyList.cons u us) ++ (')' :: r) =
          ',' :: (render u ++ (sepTail us ++ (')' :: r))) := by
        rw [show sepTail (TyList.cons u us) = ',' :: (render u ++ sepTail us) from rfl]
        simp
      rw [heq]
      simp only [parseSepAux, pChar_self, hp u _ (Or.inl rfl) (sepTail_goodHead us r)]
      rw [parseSepAux_members us p
        (fun t' r' hm hg => hp t' r' (Or.inr hm) hg) f r
        (by rw [show countTL (TyList.cons u us) = countTL us + 1 from rfl] at hf; omega)]
      rfl

theorem parseSep1_members (p : List Char → Option (List Char × Ty))
    (t0 : Ty) (ts : TyList)
    (hp : ∀ t' r', memTL t' (TyList.cons t0 ts) → goodHead r' = true →
      p (render t' ++ r') = some (r', t'))
    (r : List Char) :
    parseSep1 p (renderList (TyList.cons t0 ts) ++ (')' :: r)) =
      some (')' :: r, TyList.toList (TyList.cons t0 ts)) := by
  rw [renderList_decomp ts t0, List.append_assoc]
  unfold parseSep1
  rw [hp t0 _ (Or.inl rfl) (sepTail_goodHead ts r)]
  have hlen : countTL ts ≤ (sepTail ts ++ (')' :: r)).length := by
    have := countTL_le_sepTail_len ts
    simp only [List.length_append]
    omega
  show some ((parseSepAux p (sepTail ts ++ (')' :: r)).length (sepTail ts ++ (')' :: r))).1,
    t0 :: (parseSepAux p (sepTail ts ++ (')' :: r)).length (sepTail ts ++ (')' :: r))).2) =
    some (')' :: r, TyList.toList (TyList.cons t0 ts))
  rw [parseSepAux_members ts p (fun t' r' hm hg => hp t' r' (Or.inr hm) hg) _ r hlen]
  rfl

theorem parseTuple_simple_none (p : List Char → Option (List Char × Ty))
    (t : Ty) (x : List Char) (hs : isSimple t = true) :
    parseTuple p (render t ++ x) = none := by
  cases t with
  | uint m => rfl
  | int m => rfl
  | address => rfl
  | bool => rfl
  | string => rfl
  | fixedBytes m => rfl
  | bytes => rfl
  | fixedArray t n => simp [isSimple] at hs
  | array t => simp [isSimple] at hs
  | tuple ts => simp [isSimple] at hs

/-- A rendered valid type, followed by input that cannot extend it,
re-parses to exactly that type through parse_type, given enough fuel. -/
theorem parseType_render : ∀ (fuel : Nat) (t : Ty) (r : List Char),
    validTy t = true → (render t).length < fuel → goodHead r = true →
    parseType fuel (render t ++ r) = some (r, t) := by
  intro fuel
  induction fuel with
  | zero =>
    intro t r _ hlen _
    exact absurd hlen (by omega)
  | succ f ih =>
    intro t r hv hlen hg
    by_cases harr : isArrTy t = true
    · obtain ⟨hvb, hsb, hok, hne⟩ := valid_arr_parts t hv harr
      rw [render_decomp t, List.append_assoc]
      simp only [parseType]
      rw [parseTuple_simple_none (parseType f) (arrBase t) _ hsb]
      have hhd : headIsDigit (sufConcat (arrSizes t) ++ r) = false := by
        cases hS : arrSizes t with
        | nil => exact absurd hS hne
        | cons sz szs => exact sufConcat_cons_head_digit sz szs r
      have hps := parseSimpleType_render (arrBase t) (sufConcat (arrSizes t) ++ r) hsb hvb hhd
      have hbr := parseBrackets_suf (arrSizes t) r hne hok (goodHead_not_lb hg)
      have hpa : parseArray (render (arrBase t) ++ (sufConcat (arrSizes t) ++ r)) =
          some (r, t) := by
        unfold parseArray
        simp only [hps, hbr]
        cases hS : arrSizes t with
        | nil => exact absurd hS hne
        | cons sz0 szs =>
          have hfold := foldl_arrSizes t
          rw [hS, List.foldl_cons] at hfold
          show some (r, szs.foldl arrayFromSize (arrayFromSize (arrBase t) sz0)) =
            some (r, t)
          rw [hfold]
      rw [hpa]
      rfl
    · by_cases htup : isTupleTy t = true
      · cases t with
        | uint m => simp [isTupleTy] at htup
        | int m => simp [isTupleTy] at htup
        | address => simp [isTupleTy] at htup
        | bool => simp [isTupleTy] at htup
        | string => simp [isTupleTy] at htup
        | fixedBytes m => simp [isTupleTy] at htup
        | bytes => simp [isTupleTy] at htup
        | fixedArray t n => simp [isTupleTy] at htup
        | array t => simp [isTupleTy] at htup
        | tuple ts =>
          cases ts with
          | nil => simp [validTy] at hv
          | cons t0 ts' =>
            have hvl : validTyList (TyList.cons t0 ts') = true := by
              simpa [validTy] using hv
            have heq : render (Ty.tuple (TyList.cons t0 ts')) ++ r =
                '(' :: (renderList (TyList.cons t0 ts') ++ (')' :: r)) := by
              rw [show render (Ty.tuple (TyList.cons t0 ts')) =
                '(' :: (renderList (TyList.cons t0 ts') ++ [')']) from rfl]
              simp
            rw [heq]
            simp only [parseType]
            have hp : ∀ t' r', memTL t' (TyList.cons t0 ts') → goodHead r' = true →
                parseType f (render t' ++ r') = some (r', t') := by
              intro t' r' hm hg'
              refine ih t' r' (validTyList_mem _ hvl t' hm) ?_ hg'
              have h1 := mem_render_le (TyList.cons t0 ts') t' hm
              have h2 : (render (Ty.tuple (TyList.cons t0 ts'))).length =
                  (renderList (TyList.cons t0 ts')).length + 2 := by
                rw [show render (Ty.tuple (TyList.cons t0 ts')) =
                  '(' :: (renderList (TyList.cons t0 ts') ++ [')']) from rfl]
                simp
              omega
            have htu : parseTuple (parseType f)
                ('(' :: (renderList (TyList.cons t0 ts') ++ (')' :: r))) =
                some (r, Ty.tuple (TyList.cons t0 ts')) := by
              unfold parseTuple
              simp only [pChar_self, parseSep1_members (parseType f) t0 ts' hp r]
              rw [ofList_toList]
            rw [htu]
            rfl
      · have hs : isSimple t = true :=
          isSimple_of_not_arr_tuple (by simpa using harr) (by simpa using htup)
        simp only [parseType]
        rw [parseTuple_simple_none (parseType f) t r hs]
        have hps := parseSimpleType_render t r hs hv (goodHead_not_digit hg)
        have hpa : parseArray (render t ++ r) = none := by
          unfold parseArray
          have hbr : parseBrackets r = none := by
            unfold parseBrackets
            rw [parseBracket_not (goodHead_not_lb hg)]
          simp only [hps, hbr]
        rw [hpa, hps]
        rfl

/-- A rendered valid type re-parses exactly: parse is a left inverse of
render on the grammar's value range. -/
theorem parseExact_render (t : Ty) (h : validTy t = true) :
    parseExactType (render t) = some t := by
  unfold parseExactType
  have hmain := parseType_render ((render t).length + 1) t [] h (by omega) rfl
  rw [List.append_nil] at hmain
  rw [hmain]

/-!
Rejection of out-of-range numeric suffixes.
-/

theorem parseInteger_decDigits' (n : Nat) :
    parseInteger (decDigits n) = if n < 2 ^ 64 then some ([], n) else none := by
  have h := parseInteger_decDigits n [] rfl
  simpa using h

theorem digit_ne_lb {c : Char} (h : c.isDigit = true) : (c == '[') = false := by
  have hne : c ≠ '[' := by
    intro he
    subst he
    exact absurd h (by decide)
  exact beq_eq_false_iff_ne.mpr hne

/-- One-step unfolding of the fueled type parser. -/
theorem parseType_succ (fuel : Nat) (s : List Char) :
    parseType (fuel + 1) s =
      (parseTuple (parseType fuel) s).orElse fun _ =>
      (parseArray s).orElse fun _ => parseSimpleType s := rfl

theorem parseSimpleType_uint_reject (N : Nat) (h : checkIntSize N = false) :
    parseSimpleType ("uint".toList ++ decDigits N) = none := by
  unfold parseSimpleType
  have hu : parseUint ("uint".toList ++ decDigits N) = none := by
    unfold parseUint parseSized
    simp only [pTag_append, parseInteger_decDigits']
    by_cases hN : N < 2 ^ 64
    · simp only [if_pos hN, h]
      rfl
    · simp only [if_neg hN]
  rw [hu]
  rw [show parseInt ("uint".toList ++ decDigits N) = none from rfl]
  rw [show parseBytes ("uint".toList ++ decDigits N) = none from rfl]
  rw [show parseString ("uint".toList ++ decDigits N) = none from rfl]
  rw [show parseAddress ("uint".toList ++ decDigits N) = none from rfl]
  rw [show parseBool ("uint".toList ++ decDigits N) = none from rfl]
  rfl

theorem parseSimpleType_int_reject (N : Nat) (h : checkIntSize N = false) :
    parseSimpleType ("int".toList ++ decDigits N) = none := by
  unfold parseSimpleType
  have hi : parseInt ("int".toList ++ decDigits N) = none := by
    unfold parseInt parseSized
    simp only [pTag_append, parseInteger_decDigits']
    by_cases hN : N < 2 ^ 64
    · simp only [if_pos hN, h]
      rfl
    · simp only [if_neg hN]
  rw [show parseUint ("int".toList ++ decDigits N) = none from rfl]
  rw [hi]
  rw [show parseBytes ("int".toList ++ decDigits N) = none from rfl]
  rw [show parseString ("int".toList ++ decDigits N) = none from rfl]
  rw [show parseAddress ("int".toList ++ decDigits N) = none from rfl]
  rw [show parseBool ("int".toList ++ decDigits N) = none from rfl]
  rfl

theorem parseExactType_uint_reject (N : Nat) (h : checkIntSize N = false) :
    parseExactType ("uint".toList ++ decDigits N) = none := by
  unfold parseExactType
  rw [parseType_succ]
  rw [show parseTuple (parseType ("uint".toList ++ decDigits N).length)
    ("uint".toList ++ decDigits N) = none from rfl]
  have hst := parseSimpleType_uint_reject N h
  have hpa : parseArray ("uint".toList ++ decDigits N) = none := by
    unfold parseArray
    simp only [hst]
  rw [hpa, hst]
  rfl

theorem parseExactType_int_reject (N : Nat) (h : checkIntSize N = false) :
    parseExactType ("int".toList ++ decDigits N) = none := by
  unfold parseExactType
  rw [parseType_succ]
  rw [show parseTuple (parseType ("int".toList ++ decDigits N).length)
    ("int".toList ++ decDigits N) = none from rfl]
  have hst := parseSimpleType_int_reject N h
  have hpa : parseArray ("int".toList ++ decDigits N) = none := by
    unfold parseArray
    simp only [hst]
  rw [hpa, hst]
  rfl

theorem parseExactType_bytes_reject (N : Nat) (h : checkFixedBytesSize N = false) :
    parseExactType ("bytes".toList ++ decDigits N) = none := by
  have hsb : parseSimpleType ("bytes".toList ++ decDigits N) =
      some (decDigits N, Ty.bytes) := by
    unfold parseSimpleType
    rw [show parseUint ("bytes".toList ++ decDigits N) = none from rfl]
    rw [show parseInt ("bytes".toList ++ decDigits N) = none from rfl]
    have hb : parseBytes ("bytes".toList ++ decDigits N) =
        some (decDigits N, Ty.bytes) := by
      unfold parseBytes
      simp only [pTag_append, parseInteger_decDigits']
      by_cases hN : N < 2 ^ 64
      · simp only [if_pos hN, h]
        rfl
      · simp only [if_neg hN]
    rw [hb]
    rfl
  have hbrk : parseBrackets (decDigits N) = none := by
    unfold parseBrackets
    obtain ⟨c, cs, hcd, hdig⟩ := decDigits_head_digit N
    rw [hcd]
    rw [parseBracket_not (by simpa [headIsLB] using digit_ne_lb hdig)]
  have hpa : parseArray ("bytes".toList ++ decDigits N) = none := by
    unfold parseArray
    simp only [hsb, hbrk]
  unfold parseExactType
  rw [parseType_succ]
  rw [show parseTuple (parseType ("bytes".toList ++ decDigits N).length)
    ("bytes".toList ++ decDigits N) = none from rfl]
  rw [hpa, hsb]
  obtain ⟨c, cs, hcd, _⟩ := decDigits_head_digit N
  rw [hcd]
  rfl

/-!
Claims C8 and C9.
-/

/-- Claim C8.  uint N / int N parse exactly when N is a multiple of 8
in 8..256, bytes N parses to FixedBytes N exactly when N is in 1..32,
and any out-of-range suffix makes the whole parse fail with a grammar
error (none) rather than being clamped to some other size. -/
theorem c8_numeric_suffix_bounds (N : Nat) :
    (parseExactType ("uint".toList ++ decDigits N) = some (Ty.uint N) ↔
      (N % 8 = 0 ∧ 8 ≤ N ∧ N ≤ 256)) ∧
    (parseExactType ("int".toList ++ decDigits N) = some (Ty.int N) ↔
      (N % 8 = 0 ∧ 8 ≤ N ∧ N ≤ 256)) ∧
    (parseExactType ("bytes".toList ++ decDigits N) = some (Ty.fixedBytes N) ↔
      (1 ≤ N ∧ N ≤ 32)) ∧
    (¬(N % 8 = 0 ∧ 8 ≤ N ∧ N ≤ 256) →
      parseExactType ("uint".toList ++ decDigits N) = none ∧
      parseExactType ("int".toList ++ decDigits N) = none) ∧
    (¬(1 ≤ N ∧ N ≤ 32) → parseExactType ("bytes".toList ++ decDigits N) = none) := by
  have hint : ∀ h : checkIntSize N = true,
      parseExactType ("uint".toList ++ decDigits N) = some (Ty.uint N) ∧
      parseExactType ("int".toList ++ decDigits N) = some (Ty.int N) :=
    fun h => ⟨parseExact_render (Ty.uint N) h, parseExact_render (Ty.int N) h⟩
  have hby : ∀ h : checkFixedBytesSize N = true,
      parseExactType ("bytes".toList ++ decDigits N) = some (Ty.fixedBytes N) :=
    fun h => parseExact_render (Ty.fixedBytes N) h
  refine ⟨⟨?_, ?_⟩, ⟨?_, ?_⟩, ⟨?_, ?_⟩, ?_, ?_⟩
  · intro hp
    by_contra hc
    have hcf : checkIntSize N = false := by
      cases hck : checkIntSize N with
      | true => exact absurd ((checkIntSize_iff N).mp hck) hc
      | false => rfl
    rw [parseExactType_uint_reject N hcf] at hp
    exact Option.noConfusion hp
  · intro hc
    exact (hint ((checkIntSize_iff N).mpr hc)).1
  · intro hp
    by_contra hc
    have hcf : checkIntSize N = false := by
      cases hck : checkIntSize N with
      | true => exact absurd ((checkIntSize_iff N).mp hck) hc
      | false => rfl
    rw [parseExactType_int_reject N hcf] at hp
    exact Option.noConfusion hp
  · intro hc
    exact (hint ((checkIntSize_iff N).mpr hc)).2
  · intro hp
    by_contra hc
    have hcf : checkFixedBytesSize N = false := by
      cases hck : checkFixedBytesSize N with
      | true => exact absurd ((checkFixedBytesSize_iff N).mp hck) hc
      | false => rfl
    rw [parseExactType_bytes_reject N hcf] at hp
    exact Option.noConfusion hp
  · intro hc
    exact hby ((checkFixedBytesSize_iff N).mpr hc)
  · intro hc
    have hcf : checkIntSize N = false := by
      cases hck : checkIntSize N with
      | true => exact absurd ((checkIntSize_iff N).mp hck) hc
      | false => rfl
    exact ⟨parseExactType_uint_reject N hcf, parseExactType_int_reject N hcf⟩
  · intro hc
    have hcf : checkFixedBytesSize N = false := by
      cases hck : checkFixedBytesSize N with
      | true => exact absurd ((checkFixedBytesSize_iff N).mp hck) hc
      | false => rfl
    exact parseExactType_bytes_reject N hcf

/-- Witness for claim C8 at the concrete suffixes 7 (rejected) and 64
(accepted). -/
theorem c8_numeric_suffix_bounds_witness :
    parseExactType ("uint".toList ++ decDigits 7) = none ∧
    parseExactType ("uint".toList ++ decDigits 64) = some (Ty.uint 64) :=
  ⟨((c8_numeric_suffix_bounds 7).2.2.2.1 (by decide)).1,
   (c8_numeric_suffix_bounds 64).1.mpr (by decide)⟩

/-- Claim C9, counterexample.  The claim quantifies over every Type.
For the type (uint256)[2] — a fixed array over a tuple, well formed
under the data model's invariants — the canonical rendering does not
re-parse at all (parse_array only accepts a simple base type), so
render(parse(render(t))) = render(t) fails at this t. -/
theorem c9_roundtrip_counterexample :
    Option.map render (parseExactType
      (render (Ty.fixedArray (Ty.tuple (TyList.cons (Ty.uint 256) TyList.nil)) 2))) ≠
    some (render (Ty.fixedArray (Ty.tuple (TyList.cons (Ty.uint 256) TyList.nil)) 2)) := by
  rw [show parseExactType
    (render (Ty.fixedArray (Ty.tuple (TyList.cons (Ty.uint 256) TyList.nil)) 2)) =
    none from rfl]
  simp

/-- Claim C9 as amended: for every type the grammar can produce —
integer widths a multiple of 8 in 8..256, fixed-bytes sizes in 1..32,
fixed-array sizes below 2^64, nonempty tuples, and no tuple at the base
of an array nest — parsing the canonical rendering succeeds and
re-rendering yields the same string. -/
theorem c9_render_parse_render_stable (t : Ty) (h : validTy t = true) :
    Option.map render (parseExactType (render t)) = some (render t) := by
  rw [parseExact_render t h]
  rfl

/-- Witness for the amended claim C9 at the concrete type
string[2][]. -/
theorem c9_render_parse_render_stable_witness :
    validTy (Ty.array (Ty.fixedArray Ty.string 2)) = true ∧
    Option.map render (parseExactType (render (Ty.array (Ty.fixedArray Ty.string 2)))) =
      some (render (Ty.array (Ty.fixedArray Ty.string 2))) :=
  ⟨by decide, c9_render_parse_render_stable (Ty.array (Ty.fixedArray Ty.string 2)) (by decide)⟩
